import Mathlib

/-!
Verification of the fastnbt core: the typed NBT value model and strict
tag-discrimination engine.

Definitions are a shallow embedding of `src/fastnbt/src/lib.rs`:
the `Tag` enumeration with its byte conversions (`TryFrom<u8> for Tag`,
`From<Tag> for u8`), the strict scalar discriminators `strict_i8`,
`strict_i16`, `strict_i32`, the zero-size array-tag validator `CompTag<N>`,
and the recursive `Value` sum type.  The recursive decode/encode contract
of the composite value model is modelled from the specification (the
`de` module is not part of the sources under verification); §4.5 of the
specification fixes the wire format: big-endian multi-byte primitives,
signed 32-bit length fields with negative counts rejected, compounds
terminated by a literal `End` byte, and tag-first dispatch.
-/

namespace Fastnbt

/-- The NBT tag enumeration from `lib.rs`.  `end_` stands for the source's
`End` discriminant (0); the other constructors keep the source names in
lower case. -/
inductive Tag where
  | end_
  | byte
  | short
  | int
  | long
  | float
  | double
  | byteArray
  | string
  | list
  | compound
  | intArray
  | longArray
deriving DecidableEq, Repr

/-- The error kinds of the specification's flat error catalog (§7).  The
source's `TryFrom<u8>` returns a unit error and `CompTag` a custom serde
error; the names used here follow the specification's classification.
`fuelExhausted` is a model artifact standing for the resource-exhaustion
failure on pathologically deep nesting admitted by §5. -/
inductive Error where
  | unknownTag
  | typeMismatch (expected : Nat)
  | arrayTypeMismatch
  | negativeLength
  | truncated
  | unexpectedEnd
  | invalidText
  | fuelExhausted
deriving DecidableEq, Repr

/-- Decidable equality of results, so that claims over concrete bytes can
be settled by evaluation. -/
instance {e a : Type} [DecidableEq e] [DecidableEq a] : DecidableEq (Except e a)
  | .ok x, .ok y => decidable_of_iff (x = y) (by simp)
  | .error x, .error y => decidable_of_iff (x = y) (by simp)
  | .ok _, .error _ => isFalse (by simp)
  | .error _, .ok _ => isFalse (by simp)

/-- `impl TryFrom<u8> for Tag` from `lib.rs`: bytes 0–12 map to the
thirteen tags, the catch-all arm `13..=u8::MAX` fails.  The error kind
name `UnknownTag` is the specification's classification of that failure
(the source returns a unit error at this layer). -/
def fromByte : Nat → Except Error Tag
  | 0 => .ok .end_
  | 1 => .ok .byte
  | 2 => .ok .short
  | 3 => .ok .int
  | 4 => .ok .long
  | 5 => .ok .float
  | 6 => .ok .double
  | 7 => .ok .byteArray
  | 8 => .ok .string
  | 9 => .ok .list
  | 10 => .ok .compound
  | 11 => .ok .intArray
  | 12 => .ok .longArray
  | _ => .error .unknownTag

/-- `impl From<Tag> for u8` from `lib.rs`. -/
def toByte : Tag → Nat
  | .end_ => 0
  | .byte => 1
  | .short => 2
  | .int => 3
  | .long => 4
  | .float => 5
  | .double => 6
  | .byteArray => 7
  | .string => 8
  | .list => 9
  | .compound => 10
  | .intArray => 11
  | .longArray => 12

/-- `pub(crate) const BYTE_ARRAY_TAG: u8 = 7` from `lib.rs`. -/
def BYTE_ARRAY_TAG : Nat := 7

/-- `pub(crate) const INT_ARRAY_TAG: u8 = 11` from `lib.rs`. -/
def INT_ARRAY_TAG : Nat := 11

/-- `pub(crate) const LONG_ARRAY_TAG: u8 = 12` from `lib.rs`. -/
def LONG_ARRAY_TAG : Nat := 12

/-! ## Strict scalar discriminators

A serde deserializer over the self-describing NBT format reports each
primitive integer at the width the wire tag declared, invoking the
corresponding `visit_iN` method of the visitor it is handed.  `ReportedInt`
models one such reported primitive: the width the underlying reader
announced together with the value. -/

/-- A primitive signed integer as reported by the underlying reader:
one constructor per reported width. -/
inductive ReportedInt where
  | i8 (v : Int)
  | i16 (v : Int)
  | i32 (v : Int)
  | i64 (v : Int)
deriving DecidableEq, Repr

/-- The width, in bits, at which the underlying reader reported the value. -/
def ReportedInt.width : ReportedInt → Nat
  | .i8 _ => 8
  | .i16 _ => 16
  | .i32 _ => 32
  | .i64 _ => 64

/-- The reported value itself. -/
def ReportedInt.value : ReportedInt → Int
  | .i8 v => v
  | .i16 v => v
  | .i32 v => v
  | .i64 v => v

/-- `strict_i8` from `lib.rs`: `de.deserialize_i8(StrictI8Visitor)` where
`StrictI8Visitor` implements only `visit_i8` (returning the value
unchanged).  A primitive reported at any other width falls to serde's
default visitor methods, which reject with an invalid-type error carrying
the visitor's expectation "expecting exactly i8" — the specification's
`TypeMismatch` reporting expected width 8. -/
def strict_i8 : ReportedInt → Except Error Int
  | .i8 v => .ok v
  | .i16 _ => .error (.typeMismatch 8)
  | .i32 _ => .error (.typeMismatch 8)
  | .i64 _ => .error (.typeMismatch 8)

/-- `strict_i16` from `lib.rs`: only `visit_i16` is implemented; every
other reported width is rejected by the default visitor methods. -/
def strict_i16 : ReportedInt → Except Error Int
  | .i16 v => .ok v
  | .i8 _ => .error (.typeMismatch 16)
  | .i32 _ => .error (.typeMismatch 16)
  | .i64 _ => .error (.typeMismatch 16)

/-- `strict_i32` from `lib.rs`: only `visit_i32` is implemented; every
other reported width is rejected by the default visitor methods. -/
def strict_i32 : ReportedInt → Except Error Int
  | .i32 v => .ok v
  | .i8 _ => .error (.typeMismatch 32)
  | .i16 _ => .error (.typeMismatch 32)
  | .i64 _ => .error (.typeMismatch 32)

/-- Reading one byte from the input; an exhausted input is the
specification's `Truncated` failure. -/
def readByte : List Nat → Except Error (Nat × List Nat)
  | [] => .error .truncated
  | b :: rest => .ok (b, rest)

/-- `impl Deserialize for CompTag<N>` from `lib.rs`: deserialize one `u8`
tag byte, fail when it differs from `N` (the serde custom error
"unexpected array type", the specification's `ArrayTypeMismatch`), and
otherwise produce the zero-size marker `Self`, modelled as `Unit`. -/
def compTagDeserialize (n : Nat) (input : List Nat) : Except Error (Unit × List Nat) :=
  match readByte input with
  | .error e => .error e
  | .ok (tag, rest) => if tag ≠ n then .error .arrayTypeMismatch else .ok ((), rest)

/-! ## Big-endian primitives

§6 fixes the wire format: all multi-byte integers are big-endian, list and
array length fields are signed 32-bit, string length prefixes are
unsigned 16-bit.  Signed integers travel in two's complement. -/

/-- The `k` big-endian bytes of `n` (most significant first). -/
def toBytesBE : Nat → Nat → List Nat
  | 0, _ => []
  | k + 1, n => toBytesBE k (n / 256) ++ [n % 256]

/-- Reassemble a big-endian byte run into the unsigned value it encodes. -/
def fromBytesBE (l : List Nat) : Nat :=
  l.foldl (fun a b => a * 256 + b) 0

/-- Reading exactly `k` bytes; an input shorter than `k` is `Truncated`. -/
def readBytes (k : Nat) (input : List Nat) : Except Error (List Nat × List Nat) :=
  if input.length < k then .error .truncated else .ok (input.take k, input.drop k)

/-- Reinterpret a `w`-bit unsigned value as two's-complement signed. -/
def toSigned (w : Nat) (n : Nat) : Int :=
  if n < 2 ^ (w - 1) then (n : Int) else (n : Int) - (2 : Int) ^ w

/-- The `k`-byte two's-complement big-endian encoding of `i`. -/
def writeIntBE (k : Nat) (i : Int) : List Nat :=
  toBytesBE k (i % ((2 : Int) ^ (8 * k))).toNat

/-- Read a `k`-byte two's-complement big-endian signed integer. -/
def readIntBE (k : Nat) (input : List Nat) : Except Error (Int × List Nat) :=
  match readBytes k input with
  | .error e => .error e
  | .ok (bs, rest) => .ok (toSigned (8 * k) (fromBytesBE bs), rest)

/-- Read a 2-byte big-endian unsigned length prefix. -/
def readU16 (input : List Nat) : Except Error (Nat × List Nat) :=
  match readBytes 2 input with
  | .error e => .error e
  | .ok (bs, rest) => .ok (fromBytesBE bs, rest)

theorem length_toBytesBE (k n : Nat) : (toBytesBE k n).length = k := by
  induction k generalizing n with
  | zero => rfl
  | succ k ih => simp [toBytesBE, ih]

theorem fromBytesBE_append_single (l : List Nat) (b : Nat) :
    fromBytesBE (l ++ [b]) = fromBytesBE l * 256 + b := by
  simp [fromBytesBE, List.foldl_append]

theorem fromBytesBE_toBytesBE (k n : Nat) (h : n < 256 ^ k) :
    fromBytesBE (toBytesBE k n) = n := by
  induction k generalizing n with
  | zero =>
    simp [Nat.pow_zero] at h
    simp [toBytesBE, fromBytesBE, h]
  | succ k ih =>
    have hdiv : n / 256 < 256 ^ k := by
      rw [Nat.div_lt_iff_lt_mul (by norm_num : 0 < 256)]
      calc n < 256 ^ (k + 1) := h
        _ = 256 ^ k * 256 := by ring
    rw [toBytesBE, fromBytesBE_append_single, ih _ hdiv]
    omega

theorem readBytes_append (bs rest : List Nat) :
    readBytes bs.length (bs ++ rest) = .ok (bs, rest) := by
  simp [readBytes, List.take_left, List.drop_left]

theorem readBytes_exact (k : Nat) (bs rest : List Nat) (h : bs.length = k) :
    readBytes k (bs ++ rest) = .ok (bs, rest) := by
  subst h; exact readBytes_append bs rest

/-- Two's-complement round trip for a value in the signed `w`-bit range. -/
theorem toSigned_emod (w : Nat) (hw : 1 ≤ w) (i : Int)
    (h1 : -((2 : Int) ^ (w - 1)) ≤ i) (h2 : i < (2 : Int) ^ (w - 1)) :
    toSigned w (i % ((2 : Int) ^ w)).toNat = i := by
  have hsplit : (2 : Int) ^ w = 2 ^ (w - 1) * 2 := by
    conv_lhs => rw [show w = (w - 1) + 1 by omega]
    rw [pow_succ]
  have hApos : (0 : Int) < 2 ^ (w - 1) := by positivity
  have hcast : ((2 ^ (w - 1) : Nat) : Int) = (2 : Int) ^ (w - 1) := by push_cast; ring
  unfold toSigned
  rcases le_or_lt 0 i with hpos | hneg
  · have hmod : i % ((2 : Int) ^ w) = i := Int.emod_eq_of_lt hpos (by omega)
    rw [hmod]
    have hlt : i.toNat < 2 ^ (w - 1) := by omega
    rw [if_pos hlt]
    omega
  · have hmod : i % ((2 : Int) ^ w) = i + 2 ^ w := by
      have heq : i + (2 : Int) ^ w * 1 = i + 2 ^ w := by ring
      calc i % ((2 : Int) ^ w)
          = (i + (2 : Int) ^ w * 1) % ((2 : Int) ^ w) := by
            rw [Int.add_mul_emod_self_left]
        _ = i + 2 ^ w := by
            rw [heq]; exact Int.emod_eq_of_lt (by omega) (by omega)
    rw [hmod]
    have hge : ¬ ((i + 2 ^ w).toNat < 2 ^ (w - 1)) := by omega
    rw [if_neg hge]
    omega

/-! ## The composite value model

`Value` from `lib.rs`: a recursive sum type.  `i8`/`i16`/`i32`/`i64`
payloads are `Int` with explicit range side conditions; the two float
variants carry their raw 32- and 64-bit patterns (byte-exact, as the wire
carries them); strings carry their modified-UTF-8 byte run (which must
round-trip byte-exactly even outside strict UTF-8, §4.5); compounds are
name-to-value entry lists with unique names. -/

/-- The recursive NBT value sum type (`Value` in `lib.rs`). -/
inductive Value where
  | byte (v : Int)
  | short (v : Int)
  | int (v : Int)
  | long (v : Int)
  | float (bits : Nat)
  | double (bits : Nat)
  | string (bytes : List Nat)
  | byteArray (xs : List Int)
  | intArray (xs : List Int)
  | longArray (xs : List Int)
  | list (vs : List Value)
  | compound (es : List (List Nat × Value))

/-- The wire tag introducing each `Value` variant. -/
def tagOf : Value → Tag
  | .byte _ => .byte
  | .short _ => .short
  | .int _ => .int
  | .long _ => .long
  | .float _ => .float
  | .double _ => .double
  | .string _ => .string
  | .byteArray _ => .byteArray
  | .intArray _ => .intArray
  | .longArray _ => .longArray
  | .list _ => .list
  | .compound _ => .compound

/-- The homogeneous element tag a list declares on the wire: the tag of
its elements, or `End` as the conventional marker for an empty list
(§4.5). -/
def listTag : List Value → Tag
  | [] => .end_
  | v :: _ => tagOf v

/-- `HashMap::insert` on the association-list model of a compound:
overwrite the value when the name is present, append otherwise (last
occurrence wins, §4.5). -/
def insertEntry : List (List Nat × Value) → List Nat → Value → List (List Nat × Value)
  | [], k, v => [(k, v)]
  | (k', v') :: rest, k, v =>
    if k' = k then (k', v) :: rest else (k', v') :: insertEntry rest k v

/-- Encode a run of `k`-byte big-endian signed integers (array payload). -/
def encodeInts (k : Nat) (xs : List Int) : List Nat :=
  (xs.map (writeIntBE k)).flatten

mutual

/-- Modelled from the spec: the encoded payload of one value, following
the wire format of §4.5/§6 (the write side is outside the sources under
verification).  Scalars are big-endian two's complement; strings carry a
2-byte unsigned length then their bytes; arrays carry their element-tag
confirmation byte, a signed 32-bit count, then big-endian elements; lists
carry the element tag, a signed 32-bit count, then the element payloads;
compounds carry tagged named entries terminated by an `End` byte. -/
def encodePayload : Value → List Nat
  | .byte i => writeIntBE 1 i
  | .short i => writeIntBE 2 i
  | .int i => writeIntBE 4 i
  | .long i => writeIntBE 8 i
  | .float b => toBytesBE 4 b
  | .double b => toBytesBE 8 b
  | .string s => toBytesBE 2 s.length ++ s
  | .byteArray xs => BYTE_ARRAY_TAG :: (writeIntBE 4 xs.length ++ encodeInts 1 xs)
  | .intArray xs => INT_ARRAY_TAG :: (writeIntBE 4 xs.length ++ encodeInts 4 xs)
  | .longArray xs => LONG_ARRAY_TAG :: (writeIntBE 4 xs.length ++ encodeInts 8 xs)
  | .list vs => toByte (listTag vs) :: (writeIntBE 4 vs.length ++ encodeList vs)
  | .compound es => encodeEntries es ++ [0]

/-- The concatenated payloads of a list's elements. -/
def encodeList : List Value → List Nat
  | [] => []
  | v :: vs => encodePayload v ++ encodeList vs

/-- The encoded entries of a compound, without the terminating `End`
byte: each entry is its value's tag byte, the 2-byte length-prefixed
name, then the value's payload. -/
def encodeEntries : List (List Nat × Value) → List Nat
  | [] => []
  | (k, v) :: es =>
    toByte (tagOf v) :: (toBytesBE 2 k.length ++ k ++ encodePayload v ++ encodeEntries es)

end

mutual

/-- Well-formedness of a value: every integer fits its declared width,
float patterns fit their bit width, lengths fit their wire length fields,
lists are homogeneous, and compound names are unique. -/
def wfV : Value → Bool
  | .byte i => decide (-(2 ^ 7 : Int) ≤ i ∧ i < 2 ^ 7)
  | .short i => decide (-(2 ^ 15 : Int) ≤ i ∧ i < 2 ^ 15)
  | .int i => decide (-(2 ^ 31 : Int) ≤ i ∧ i < 2 ^ 31)
  | .long i => decide (-(2 ^ 63 : Int) ≤ i ∧ i < 2 ^ 63)
  | .float b => decide (b < 2 ^ 32)
  | .double b => decide (b < 2 ^ 64)
  | .string s => decide (s.length < 2 ^ 16)
  | .byteArray xs =>
    decide (xs.length < 2 ^ 31) && xs.all fun x => decide (-(2 ^ 7 : Int) ≤ x ∧ x < 2 ^ 7)
  | .intArray xs =>
    decide (xs.length < 2 ^ 31) && xs.all fun x => decide (-(2 ^ 31 : Int) ≤ x ∧ x < 2 ^ 31)
  | .longArray xs =>
    decide (xs.length < 2 ^ 31) && xs.all fun x => decide (-(2 ^ 63 : Int) ≤ x ∧ x < 2 ^ 63)
  | .list vs => decide (vs.length < 2 ^ 31) && wfHomo (listTag vs) vs
  | .compound es => wfEntries es

/-- Every element is well-formed and carries the list's element tag. -/
def wfHomo (t : Tag) : List Value → Bool
  | [] => true
  | v :: vs => decide (tagOf v = t) && wfV v && wfHomo t vs

/-- Every compound entry has a name short enough for its 2-byte length
prefix, a name distinct from all later names, and a well-formed value. -/
def wfEntries : List (List Nat × Value) → Bool
  | [] => true
  | (k, v) :: es =>
    decide (k.length < 2 ^ 16) && (es.all fun e => decide (e.1 ≠ k)) && wfV v && wfEntries es

end

mutual

/-- Nesting fuel needed to decode a value: one unit per node. -/
def vsize : Value → Nat
  | .byte _ => 1
  | .short _ => 1
  | .int _ => 1
  | .long _ => 1
  | .float _ => 1
  | .double _ => 1
  | .string _ => 1
  | .byteArray _ => 1
  | .intArray _ => 1
  | .longArray _ => 1
  | .list vs => 1 + vsizeList vs
  | .compound es => 1 + vsizeEntries es

/-- Total fuel needed by the elements of a list. -/
def vsizeList : List Value → Nat
  | [] => 0
  | v :: vs => vsize v + vsizeList vs

/-- Total fuel needed by the values of a compound's entries. -/
def vsizeEntries : List (List Nat × Value) → Nat
  | [] => 0
  | (_, v) :: es => vsize v + vsizeEntries es

end

/-! ## The recursive decode contract

Modelled from the spec: §4.5's table drives decoding of one value from a
`Tag` already read from the wire, with tag-first dispatch (§9).  The
decoder is parameterized by nesting fuel; `fuelExhausted` stands for the
stack-exhaustion failure on pathologically deep nesting admitted by §5
and is never reached when the fuel covers the value's nesting (`vsize`). -/

/-- Read a run of `n` signed `k`-byte big-endian integers (the payload of
an array whose count was already read and validated). -/
def decodeInts (k : Nat) : Nat → List Nat → Except Error (List Int × List Nat)
  | 0, input => .ok ([], input)
  | n + 1, input =>
    match readIntBE k input with
    | .error e => .error e
    | .ok (i, r) =>
      match decodeInts k n r with
      | .error e => .error e
      | .ok (xs, r2) => .ok (i :: xs, r2)

/-- Read `n` list elements of one homogeneous tag, recursing through the
supplied payload decoder. -/
def decodeElems (dec : Tag → List Nat → Except Error (Value × List Nat)) (t : Tag) :
    Nat → List Nat → Except Error (List Value × List Nat)
  | 0, input => .ok ([], input)
  | n + 1, input =>
    match dec t input with
    | .error e => .error e
    | .ok (v, r) =>
      match decodeElems dec t n r with
      | .error e => .error e
      | .ok (vs, r2) => .ok (v :: vs, r2)

/-- The compound entry loop of §4.5: repeatedly read a tag byte; on `End`
the compound is complete; otherwise read a length-prefixed name, decode a
value of that tag through the supplied payload decoder, and insert it
under that name (last occurrence wins).  Input exhaustion before an `End`
byte is `Truncated`.  The loop fuel only bounds the iteration count; the
caller passes at least one more than the input length, which one consumed
byte per iteration makes inexhaustible. -/
def decodeEntries (dec : Tag → List Nat → Except Error (Value × List Nat)) :
    Nat → List (List Nat × Value) → List Nat → Except Error (Value × List Nat)
  | 0, _, _ => .error .fuelExhausted
  | fuel + 1, acc, input =>
    match readByte input with
    | .error e => .error e
    | .ok (tb, r) =>
      match fromByte tb with
      | .error e => .error e
      | .ok t =>
        if t = .end_ then .ok (.compound acc, r)
        else
          match readU16 r with
          | .error e => .error e
          | .ok (len, r2) =>
            match readBytes len r2 with
            | .error e => .error e
            | .ok (name, r3) =>
              match dec t r3 with
              | .error e => .error e
              | .ok (v, r4) => decodeEntries dec fuel (insertEntry acc name v) r4

/-- One unfolding of the payload decoder (§4.5's dispatch table), with the
decoder for strictly deeper nesting supplied as `dec`.  Scalars read one
primitive of the tag's width; strings read a 2-byte length then that many
bytes; arrays validate their element-tag byte through the `CompTag` gate,
read a signed 32-bit count (negative is `NegativeLength`), then the
elements; lists read an element tag and signed count (`End` decodes to
zero elements); compounds run the entry loop; a bare `End` tag is
`UnexpectedEnd`. -/
def decodePayloadF (dec : Tag → List Nat → Except Error (Value × List Nat))
    (t : Tag) (input : List Nat) : Except Error (Value × List Nat) :=
  match t with
  | .end_ => .error .unexpectedEnd
  | .byte =>
    match readIntBE 1 input with
    | .error e => .error e
    | .ok (i, r) => .ok (.byte i, r)
  | .short =>
    match readIntBE 2 input with
    | .error e => .error e
    | .ok (i, r) => .ok (.short i, r)
  | .int =>
    match readIntBE 4 input with
    | .error e => .error e
    | .ok (i, r) => .ok (.int i, r)
  | .long =>
    match readIntBE 8 input with
    | .error e => .error e
    | .ok (i, r) => .ok (.long i, r)
  | .float =>
    match readBytes 4 input with
    | .error e => .error e
    | .ok (bs, r) => .ok (.float (fromBytesBE bs), r)
  | .double =>
    match readBytes 8 input with
    | .error e => .error e
    | .ok (bs, r) => .ok (.double (fromBytesBE bs), r)
  | .string =>
    match readU16 input with
    | .error e => .error e
    | .ok (len, r) =>
      match readBytes len r with
      | .error e => .error e
      | .ok (bs, r2) => .ok (.string bs, r2)
  | .byteArray =>
    match compTagDeserialize BYTE_ARRAY_TAG input with
    | .error e => .error e
    | .ok (_, r) =>
      match readIntBE 4 r with
      | .error e => .error e
      | .ok (n, r2) =>
        if n < 0 then .error .negativeLength
        else
          match decodeInts 1 n.toNat r2 with
          | .error e => .error e
          | .ok (xs, r3) => .ok (.byteArray xs, r3)
  | .intArray =>
    match compTagDeserialize INT_ARRAY_TAG input with
    | .error e => .error e
    | .ok (_, r) =>
      match readIntBE 4 r with
      | .error e => .error e
      | .ok (n, r2) =>
        if n < 0 then .error .negativeLength
        else
          match decodeInts 4 n.toNat r2 with
          | .error e => .error e
          | .ok (xs, r3) => .ok (.intArray xs, r3)
  | .longArray =>
    match compTagDeserialize LONG_ARRAY_TAG input with
    | .error e => .error e
    | .ok (_, r) =>
      match readIntBE 4 r with
      | .error e => .error e
      | .ok (n, r2) =>
        if n < 0 then .error .negativeLength
        else
          match decodeInts 8 n.toNat r2 with
          | .error e => .error e
          | .ok (xs, r3) => .ok (.longArray xs, r3)
  | .list =>
    match readByte input with
    | .error e => .error e
    | .ok (tb, r) =>
      match fromByte tb with
      | .error e => .error e
      | .ok et =>
        match readIntBE 4 r with
        | .error e => .error e
        | .ok (n, r2) =>
          if n < 0 then .error .negativeLength
          else if et = .end_ then .ok (.list [], r2)
          else
            match decodeElems dec et n.toNat r2 with
            | .error e => .error e
            | .ok (vs, r3) => .ok (.list vs, r3)
  | .compound => decodeEntries dec (input.length + 1) [] input

/-- The payload decoder at each nesting-fuel level. -/
def decodePayload : Nat → Tag → List Nat → Except Error (Value × List Nat)
  | 0 => fun _ _ => .error .fuelExhausted
  | fuel + 1 => decodePayloadF (decodePayload fuel)

/-- Modelled from the spec: decoding one complete value from the wire —
read the introducing tag byte, then the payload under §4.5's dispatch,
with nesting fuel amply covered by the input length. -/
def decodeValue (input : List Nat) : Except Error (Value × List Nat) :=
  match readByte input with
  | .error e => .error e
  | .ok (tb, r) =>
    match fromByte tb with
    | .error e => .error e
    | .ok t => decodePayload input.length t r

/-- Modelled from the spec: the encoding of one complete value — its tag
byte followed by its payload. -/
def encodeValue (v : Value) : List Nat :=
  toByte (tagOf v) :: encodePayload v

/-! ## Helper lemmas -/

theorem fromByte_toByte (t : Tag) : fromByte (toByte t) = .ok t := by
  cases t <;> rfl

theorem tagOf_ne_end (v : Value) : tagOf v ≠ .end_ := by
  cases v <;> simp [tagOf]

theorem length_writeIntBE (k : Nat) (i : Int) : (writeIntBE k i).length = k := by
  simp [writeIntBE, length_toBytesBE]

/-- Reading back a written signed big-endian integer in range. -/
theorem readIntBE_writeIntBE (k : Nat) (hk : 1 ≤ k) (i : Int)
    (h1 : -((2 : Int) ^ (8 * k - 1)) ≤ i) (h2 : i < (2 : Int) ^ (8 * k - 1))
    (rest : List Nat) :
    readIntBE k (writeIntBE k i ++ rest) = .ok (i, rest) := by
  have hlt : (i % ((2 : Int) ^ (8 * k))).toNat < 256 ^ k := by
    have hpos : (0 : Int) < (2 : Int) ^ (8 * k) := by positivity
    have hmod := Int.emod_lt_of_pos i hpos
    have hmod0 := Int.emod_nonneg i (ne_of_gt hpos)
    have hpow : ((256 : Nat) ^ k : Int) = (2 : Int) ^ (8 * k) := by
      push_cast
      rw [show (256 : Int) = 2 ^ 8 by norm_num, ← pow_mul]
    omega
  simp only [readIntBE, writeIntBE, readBytes_exact _ _ _ (length_toBytesBE _ _),
    fromBytesBE_toBytesBE _ _ hlt, toSigned_emod (8 * k) (by omega) i h1 h2]

/-- Reading back a written unsigned 16-bit length prefix. -/
theorem readU16_toBytesBE (n : Nat) (h : n < 2 ^ 16) (rest : List Nat) :
    readU16 (toBytesBE 2 n ++ rest) = .ok (n, rest) := by
  simp only [readU16, readBytes_exact _ _ _ (length_toBytesBE _ _),
    fromBytesBE_toBytesBE _ _ (show n < 256 ^ 2 by norm_num at h ⊢; omega)]

/-- Reading back a written run of signed big-endian integers in range. -/
theorem decodeInts_encodeInts (k : Nat) (hk : 1 ≤ k) (xs : List Int)
    (hx : ∀ x ∈ xs, -((2 : Int) ^ (8 * k - 1)) ≤ x ∧ x < (2 : Int) ^ (8 * k - 1))
    (rest : List Nat) :
    decodeInts k xs.length (encodeInts k xs ++ rest) = .ok (xs, rest) := by
  induction xs with
  | nil => simp [decodeInts, encodeInts]
  | cons x xs ih =>
    have hx0 := hx x (by simp)
    have ih' := ih fun y hy => hx y (by simp [hy])
    have hsplit : encodeInts k (x :: xs) ++ rest = writeIntBE k x ++ (encodeInts k xs ++ rest) := by
      simp [encodeInts]
    rw [List.length_cons, hsplit]
    simp only [decodeInts, readIntBE_writeIntBE k hk x hx0.1 hx0.2, ih']

theorem wfHomo_mem {t : Tag} {vs : List Value} (h : wfHomo t vs = true) :
    ∀ v ∈ vs, tagOf v = t ∧ wfV v = true := by
  induction vs with
  | nil => simp
  | cons v vs ih =>
    rw [wfHomo] at h
    simp only [Bool.and_eq_true, decide_eq_true_eq] at h
    intro u hu
    rcases List.mem_cons.mp hu with rfl | hu
    · exact ⟨h.1.1, h.1.2⟩
    · exact ih h.2 u hu

theorem wfEntries_head {k : List Nat} {v : Value} {es : List (List Nat × Value)}
    (h : wfEntries ((k, v) :: es) = true) :
    k.length < 2 ^ 16 ∧ (∀ e ∈ es, e.1 ≠ k) ∧ wfV v = true ∧ wfEntries es = true := by
  rw [wfEntries] at h
  simp only [Bool.and_eq_true, decide_eq_true_eq, List.all_eq_true] at h
  exact ⟨h.1.1.1, h.1.1.2, h.1.2, h.2⟩

theorem vsizeList_mem {v : Value} {vs : List Value} (h : v ∈ vs) :
    vsize v ≤ vsizeList vs := by
  induction vs with
  | nil => simp at h
  | cons u vs ih =>
    rw [vsizeList]
    rcases List.mem_cons.mp h with rfl | h
    · omega
    · have := ih h; omega

theorem vsizeEntries_mem {e : List Nat × Value} {es : List (List Nat × Value)}
    (h : e ∈ es) : vsize e.2 ≤ vsizeEntries es := by
  induction es with
  | nil => simp at h
  | cons f es ih =>
    obtain ⟨k, v⟩ := f
    rcases List.mem_cons.mp h with rfl | h
    · rw [vsizeEntries]; dsimp only; omega
    · have := ih h; rw [vsizeEntries]; omega

/-- Inserting a fresh name appends the entry. -/
theorem insertEntry_fresh (acc : List (List Nat × Value)) (k : List Nat) (v : Value)
    (h : ∀ e ∈ acc, e.1 ≠ k) : insertEntry acc k v = acc ++ [(k, v)] := by
  induction acc with
  | nil => rfl
  | cons e acc ih =>
    obtain ⟨k', v'⟩ := e
    rw [insertEntry, if_neg (h (k', v') (by simp)), ih fun e he => h e (by simp [he])]
    rfl

theorem vsize_pos (v : Value) : 1 ≤ vsize v := by
  cases v <;> simp [vsize]

/-- Each encoded compound entry occupies at least one byte, so the entry
count is bounded by the encoded length. -/
theorem length_le_length_encodeEntries (es : List (List Nat × Value)) :
    es.length ≤ (encodeEntries es).length := by
  induction es with
  | nil => simp
  | cons e es ih =>
    obtain ⟨k, v⟩ := e
    rw [encodeEntries]
    simp only [List.length_cons, List.length_append]
    omega

theorem wfEntries_mem {es : List (List Nat × Value)} (h : wfEntries es = true) :
    ∀ e ∈ es, wfV e.2 = true := by
  induction es with
  | nil => simp
  | cons f es ih =>
    obtain ⟨k, v⟩ := f
    obtain ⟨_, _, hv, hes⟩ := wfEntries_head h
    intro e he
    rcases List.mem_cons.mp he with rfl | he
    · exact hv
    · exact ih hes e he

/-- Every value needs no more nesting fuel than its encoded payload is
long (each node contributes at least one byte). -/
theorem vsize_le_length_encodePayload (v : Value) :
    vsize v ≤ (encodePayload v).length := by
  suffices haux : ∀ n : Nat, ∀ u : Value, sizeOf u ≤ n → vsize u ≤ (encodePayload u).length from
    haux (sizeOf v) v le_rfl
  intro n
  induction n with
  | zero =>
    intro u hu
    exfalso
    cases u <;> simp at hu
  | succ n ih =>
    intro u hu
    cases u with
    | byte i => simp [vsize, encodePayload, length_writeIntBE]
    | short i => simp [vsize, encodePayload, length_writeIntBE]
    | int i => simp [vsize, encodePayload, length_writeIntBE]
    | long i => simp [vsize, encodePayload, length_writeIntBE]
    | float b => simp [vsize, encodePayload, length_toBytesBE]
    | double b => simp [vsize, encodePayload, length_toBytesBE]
    | string s => simp [vsize, encodePayload, length_toBytesBE]; omega
    | byteArray xs => simp [vsize, encodePayload]
    | intArray xs => simp [vsize, encodePayload]
    | longArray xs => simp [vsize, encodePayload]
    | list vs =>
      have hvs : sizeOf vs ≤ n := by
        have := Value.list.sizeOf_spec vs
        omega
      have hlist : ∀ us : List Value, sizeOf us ≤ n → vsizeList us ≤ (encodeList us).length := by
        intro us
        induction us with
        | nil => intro _; simp [vsizeList, encodeList]
        | cons u us ihu =>
          intro hsz
          have hszs := List.cons.sizeOf_spec u us
          have h1 : vsize u ≤ (encodePayload u).length := ih u (by omega)
          have h2 : vsizeList us ≤ (encodeList us).length := ihu (by omega)
          rw [vsizeList, encodeList, List.length_append]
          omega
      have := hlist vs hvs
      rw [vsize, encodePayload]
      simp only [List.length_cons, List.length_append, length_writeIntBE]
      omega
    | compound es =>
      have hes : sizeOf es ≤ n := by
        have := Value.compound.sizeOf_spec es
        omega
      have hent : ∀ fs : List (List Nat × Value), sizeOf fs ≤ n →
          vsizeEntries fs ≤ (encodeEntries fs).length := by
        intro fs
        induction fs with
        | nil => intro _; simp [vsizeEntries, encodeEntries]
        | cons f fs ihf =>
          obtain ⟨k, u⟩ := f
          intro hsz
          have hszs := List.cons.sizeOf_spec (k, u) fs
          have hszp : sizeOf (k, u) = 1 + sizeOf k + sizeOf u := by simp
          have h1 : vsize u ≤ (encodePayload u).length := ih u (by omega)
          have h2 : vsizeEntries fs ≤ (encodeEntries fs).length := ihf (by omega)
          rw [vsizeEntries, encodeEntries]
          simp only [List.length_cons, List.length_append]
          omega
      have := hent es hes
      rw [vsize, encodePayload, List.length_append]
      simp only [List.length_cons, List.length_nil]
      omega

/-! ## Round-trip lemmas for the container loops -/

/-- Elements written back to back decode back to the same list, given a
payload decoder that round-trips each element. -/
theorem decodeElems_encodeList (dec : Tag → List Nat → Except Error (Value × List Nat))
    (t : Tag) :
    ∀ (vs : List Value) (rest : List Nat),
      (∀ v ∈ vs, ∀ r, dec t (encodePayload v ++ r) = .ok (v, r)) →
      decodeElems dec t vs.length (encodeList vs ++ rest) = .ok (vs, rest) := by
  intro vs
  induction vs with
  | nil => intro rest _; simp [decodeElems, encodeList]
  | cons v vs ih =>
    intro rest hdec
    have h1 := hdec v (by simp) (encodeList vs ++ rest)
    have h2 := ih rest fun u hu r => hdec u (by simp [hu]) r
    have hsplit : encodeList (v :: vs) ++ rest = encodePayload v ++ (encodeList vs ++ rest) := by
      simp [encodeList]
    rw [List.length_cons, hsplit]
    simp only [decodeElems, h1, h2]

/-- The compound entry loop decodes encoded entries followed by an `End`
byte back into the accumulated entry list, given fresh names and a
payload decoder that round-trips each entry's value. -/
theorem decodeEntries_encodeEntries (dec : Tag → List Nat → Except Error (Value × List Nat)) :
    ∀ (es : List (List Nat × Value)) (f : Nat) (acc : List (List Nat × Value)) (rest : List Nat),
      es.length < f →
      wfEntries es = true →
      (∀ e ∈ es, ∀ e' ∈ acc, e'.1 ≠ e.1) →
      (∀ e ∈ es, ∀ r, dec (tagOf e.2) (encodePayload e.2 ++ r) = .ok (e.2, r)) →
      decodeEntries dec f acc (encodeEntries es ++ 0 :: rest) = .ok (.compound (acc ++ es), rest) := by
  intro es
  induction es with
  | nil =>
    intro f acc rest hf _ _ _
    obtain ⟨f, rfl⟩ : ∃ g, f = g + 1 := ⟨f - 1, by omega⟩
    simp [encodeEntries, decodeEntries, readByte, fromByte]
  | cons e es ih =>
    obtain ⟨k, v⟩ := e
    intro f acc rest hf hwf hfresh hdec
    simp only [List.length_cons] at hf
    obtain ⟨hklen, hkfresh, hwfv, hwfes⟩ := wfEntries_head hwf
    obtain ⟨f, rfl⟩ : ∃ g, f = g + 1 := ⟨f - 1, by omega⟩
    have hne : ¬ (tagOf v = Tag.end_) := tagOf_ne_end v
    have hdecv := hdec (k, v) (by simp) (encodeEntries es ++ 0 :: rest)
    have hinsert : insertEntry acc k v = acc ++ [(k, v)] :=
      insertEntry_fresh acc k v fun e' he' => hfresh (k, v) (by simp) e' he'
    have hrec := ih f (acc ++ [(k, v)]) rest (by omega) hwfes
      (by
        intro e he e' he'
        rcases List.mem_append.mp he' with h' | h'
        · exact hfresh e (by simp [he]) e' h'
        · have : e' = (k, v) := by simpa using h'
          subst this
          exact Ne.symm (hkfresh e he))
      (fun e he r => hdec e (by simp [he]) r)
    have hsplit : encodeEntries ((k, v) :: es) ++ 0 :: rest =
        toByte (tagOf v) ::
          (toBytesBE 2 k.length ++ (k ++ (encodePayload v ++ (encodeEntries es ++ 0 :: rest)))) := by
      simp [encodeEntries]
    rw [hsplit]
    simp only [decodeEntries, readByte, fromByte_toByte, hne, if_false,
      readU16_toBytesBE k.length hklen, readBytes_exact k.length k _ rfl, hdecv, hinsert, hrec]
    simp

/-- The compound entry loop reports `Truncated` when the input ends after
the encoded entries without an `End` byte. -/
theorem decodeEntries_truncated (dec : Tag → List Nat → Except Error (Value × List Nat)) :
    ∀ (es : List (List Nat × Value)) (f : Nat) (acc : List (List Nat × Value)),
      es.length < f →
      wfEntries es = true →
      (∀ e ∈ es, ∀ e' ∈ acc, e'.1 ≠ e.1) →
      (∀ e ∈ es, ∀ r, dec (tagOf e.2) (encodePayload e.2 ++ r) = .ok (e.2, r)) →
      decodeEntries dec f acc (encodeEntries es) = .error .truncated := by
  intro es
  induction es with
  | nil =>
    intro f acc hf _ _ _
    obtain ⟨f, rfl⟩ : ∃ g, f = g + 1 := ⟨f - 1, by omega⟩
    simp [encodeEntries, decodeEntries, readByte]
  | cons e es ih =>
    obtain ⟨k, v⟩ := e
    intro f acc hf hwf hfresh hdec
    simp only [List.length_cons] at hf
    obtain ⟨hklen, hkfresh, hwfv, hwfes⟩ := wfEntries_head hwf
    obtain ⟨f, rfl⟩ : ∃ g, f = g + 1 := ⟨f - 1, by omega⟩
    have hne : ¬ (tagOf v = Tag.end_) := tagOf_ne_end v
    have hdecv := hdec (k, v) (by simp) (encodeEntries es)
    have hinsert : insertEntry acc k v = acc ++ [(k, v)] :=
      insertEntry_fresh acc k v fun e' he' => hfresh (k, v) (by simp) e' he'
    have hrec := ih f (acc ++ [(k, v)]) (by omega) hwfes
      (by
        intro e he e' he'
        rcases List.mem_append.mp he' with h' | h'
        · exact hfresh e (by simp [he]) e' h'
        · have : e' = (k, v) := by simpa using h'
          subst this
          exact Ne.symm (hkfresh e he))
      (fun e he r => hdec e (by simp [he]) r)
    have hsplit : encodeEntries ((k, v) :: es) =
        toByte (tagOf v) ::
          (toBytesBE 2 k.length ++ (k ++ (encodePayload v ++ encodeEntries es))) := by
      simp [encodeEntries]
    rw [hsplit]
    simp only [decodeEntries, readByte, fromByte_toByte, hne, if_false,
      readU16_toBytesBE k.length hklen, readBytes_exact k.length k _ rfl, hdecv, hinsert, hrec]

theorem tagOf_eq_list (vs : List Value) : tagOf (Value.list vs) = Tag.list := rfl

/-- The central round trip: a well-formed value's encoded payload decodes
back to the value under its own tag, leaving the remaining input intact,
for any nesting fuel covering the value. -/
theorem decodePayload_encodePayload :
    ∀ (fuel : Nat) (v : Value) (rest : List Nat),
      wfV v = true → vsize v ≤ fuel →
      decodePayload fuel (tagOf v) (encodePayload v ++ rest) = .ok (v, rest) := by
  intro fuel
  induction fuel with
  | zero =>
    intro v rest _ hsz
    have := vsize_pos v
    omega
  | succ fuel ih =>
    intro v rest hwf hsz
    cases v with
    | byte i =>
      rw [wfV] at hwf
      simp only [decide_eq_true_eq] at hwf
      simp only [tagOf, encodePayload, decodePayload, decodePayloadF,
        readIntBE_writeIntBE 1 (by norm_num) i
          (by norm_num at hwf ⊢; omega) (by norm_num at hwf ⊢; omega)]
    | short i =>
      rw [wfV] at hwf
      simp only [decide_eq_true_eq] at hwf
      simp only [tagOf, encodePayload, decodePayload, decodePayloadF,
        readIntBE_writeIntBE 2 (by norm_num) i
          (by norm_num at hwf ⊢; omega) (by norm_num at hwf ⊢; omega)]
    | int i =>
      rw [wfV] at hwf
      simp only [decide_eq_true_eq] at hwf
      simp only [tagOf, encodePayload, decodePayload, decodePayloadF,
        readIntBE_writeIntBE 4 (by norm_num) i
          (by norm_num at hwf ⊢; omega) (by norm_num at hwf ⊢; omega)]
    | long i =>
      rw [wfV] at hwf
      simp only [decide_eq_true_eq] at hwf
      simp only [tagOf, encodePayload, decodePayload, decodePayloadF,
        readIntBE_writeIntBE 8 (by norm_num) i
          (by norm_num at hwf ⊢; omega) (by norm_num at hwf ⊢; omega)]
    | float b =>
      rw [wfV] at hwf
      simp only [decide_eq_true_eq] at hwf
      simp only [tagOf, encodePayload, decodePayload, decodePayloadF,
        readBytes_exact 4 (toBytesBE 4 b) rest (length_toBytesBE _ _),
        fromBytesBE_toBytesBE 4 b (by norm_num at hwf ⊢; omega)]
    | double b =>
      rw [wfV] at hwf
      simp only [decide_eq_true_eq] at hwf
      simp only [tagOf, encodePayload, decodePayload, decodePayloadF,
        readBytes_exact 8 (toBytesBE 8 b) rest (length_toBytesBE _ _),
        fromBytesBE_toBytesBE 8 b (by norm_num at hwf ⊢; omega)]
    | string s =>
      rw [wfV] at hwf
      simp only [decide_eq_true_eq] at hwf
      have hr : readU16 ((toBytesBE 2 s.length ++ s) ++ rest) = .ok (s.length, s ++ rest) := by
        rw [List.append_assoc]
        exact readU16_toBytesBE s.length hwf (s ++ rest)
      simp only [tagOf, encodePayload, decodePayload, decodePayloadF, hr,
        readBytes_exact s.length s rest rfl]
    | byteArray xs =>
      rw [wfV] at hwf
      simp only [Bool.and_eq_true, decide_eq_true_eq, List.all_eq_true] at hwf
      obtain ⟨hlen, hx⟩ := hwf
      have hcnt := readIntBE_writeIntBE 4 (by norm_num) (xs.length : Int)
        (by norm_num; omega) (by norm_num at hlen ⊢; exact_mod_cast hlen)
        (encodeInts 1 xs ++ rest)
      have hnn : ¬ ((xs.length : Int) < 0) := by omega
      have hels := decodeInts_encodeInts 1 (by norm_num) xs
        (fun x hx' => by have := hx x hx'; norm_num at this ⊢; omega) rest
      simp only [tagOf, encodePayload, decodePayload, decodePayloadF, BYTE_ARRAY_TAG,
        compTagDeserialize, readByte, List.cons_append, List.append_assoc, ne_eq,
        not_true_eq_false, if_false, hcnt, hnn, Int.toNat_natCast, hels]
    | intArray xs =>
      rw [wfV] at hwf
      simp only [Bool.and_eq_true, decide_eq_true_eq, List.all_eq_true] at hwf
      obtain ⟨hlen, hx⟩ := hwf
      have hcnt := readIntBE_writeIntBE 4 (by norm_num) (xs.length : Int)
        (by norm_num; omega) (by norm_num at hlen ⊢; exact_mod_cast hlen)
        (encodeInts 4 xs ++ rest)
      have hnn : ¬ ((xs.length : Int) < 0) := by omega
      have hels := decodeInts_encodeInts 4 (by norm_num) xs
        (fun x hx' => by have := hx x hx'; norm_num at this ⊢; omega) rest
      simp only [tagOf, encodePayload, decodePayload, decodePayloadF, INT_ARRAY_TAG,
        compTagDeserialize, readByte, List.cons_append, List.append_assoc, ne_eq,
        not_true_eq_false, if_false, hcnt, hnn, Int.toNat_natCast, hels]
    | longArray xs =>
      rw [wfV] at hwf
      simp only [Bool.and_eq_true, decide_eq_true_eq, List.all_eq_true] at hwf
      obtain ⟨hlen, hx⟩ := hwf
      have hcnt := readIntBE_writeIntBE 4 (by norm_num) (xs.length : Int)
        (by norm_num; omega) (by norm_num at hlen ⊢; exact_mod_cast hlen)
        (encodeInts 8 xs ++ rest)
      have hnn : ¬ ((xs.length : Int) < 0) := by omega
      have hels := decodeInts_encodeInts 8 (by norm_num) xs
        (fun x hx' => by have := hx x hx'; norm_num at this ⊢; omega) rest
      simp only [tagOf, encodePayload, decodePayload, decodePayloadF, LONG_ARRAY_TAG,
        compTagDeserialize, readByte, List.cons_append, List.append_assoc, ne_eq,
        not_true_eq_false, if_false, hcnt, hnn, Int.toNat_natCast, hels]
    | list vs =>
      rw [wfV] at hwf
      simp only [Bool.and_eq_true, decide_eq_true_eq] at hwf
      obtain ⟨hlen, hhomo⟩ := hwf
      rw [vsize] at hsz
      have hszl : vsizeList vs ≤ fuel := by omega
      have hcnt := readIntBE_writeIntBE 4 (by norm_num) (vs.length : Int)
        (by norm_num; omega) (by norm_num at hlen ⊢; exact_mod_cast hlen)
        (encodeList vs ++ rest)
      have hnn : ¬ ((vs.length : Int) < 0) := by omega
      cases vs with
      | nil =>
        simp only [List.length_nil, Nat.cast_zero, encodeList, List.nil_append] at hcnt
        simp only [List.length_nil, Nat.cast_zero, tagOf, encodePayload, listTag, toByte,
          decodePayload, decodePayloadF, readByte, fromByte, List.cons_append, encodeList,
          List.nil_append, List.append_nil, hcnt]
        norm_num
      | cons v vs' =>
        have hdecall : ∀ u ∈ v :: vs', ∀ r,
            decodePayload fuel (tagOf v) (encodePayload u ++ r) = .ok (u, r) := by
          intro u hu r
          obtain ⟨htag, hwfu⟩ := wfHomo_mem hhomo u hu
          rw [listTag] at htag
          rw [← htag]
          exact ih u r hwfu (le_trans (vsizeList_mem hu) hszl)
        have helems := decodeElems_encodeList (decodePayload fuel) (tagOf v) (v :: vs')
          rest hdecall
        have hne : ¬ (tagOf v = Tag.end_) := tagOf_ne_end v
        simp only [tagOf_eq_list, encodePayload, listTag, decodePayload, decodePayloadF,
          readByte, fromByte_toByte, List.cons_append, List.append_assoc, hcnt, hnn,
          if_false, ite_false, hne, Int.toNat_natCast, helems]
    | compound es =>
      rw [wfV] at hwf
      rw [vsize] at hsz
      have hszs : vsizeEntries es ≤ fuel := by omega
      have hdecall : ∀ e ∈ es, ∀ r,
          decodePayload fuel (tagOf e.2) (encodePayload e.2 ++ r) = .ok (e.2, r) := by
        intro e he r
        exact ih e.2 r (wfEntries_mem hwf e he) (le_trans (vsizeEntries_mem he) hszs)
      have hshape : encodePayload (.compound es) ++ rest = encodeEntries es ++ 0 :: rest := by
        rw [encodePayload]
        simp
      have hfuel : es.length < (encodeEntries es ++ 0 :: rest).length + 1 := by
        have := length_le_length_encodeEntries es
        simp only [List.length_append, List.length_cons]
        omega
      have hmain := decodeEntries_encodeEntries (decodePayload fuel) es
        ((encodeEntries es ++ 0 :: rest).length + 1) [] rest hfuel hwf (by simp) hdecall
      simp only [tagOf]
      rw [hshape, decodePayload]
      simp only [decodePayloadF]
      simpa using hmain

/-- Whatever the entry loop returns on success is a compound value. -/
theorem decodeEntries_shape (dec : Tag → List Nat → Except Error (Value × List Nat)) :
    ∀ (f : Nat) (acc : List (List Nat × Value)) (input : List Nat) (v : Value) (r : List Nat),
      decodeEntries dec f acc input = .ok (v, r) → ∃ es, v = .compound es := by
  intro f
  induction f with
  | zero =>
    intro acc input v r h
    simp [decodeEntries] at h
  | succ f ih =>
    intro acc input v r h
    rw [decodeEntries] at h
    repeat' split at h
    all_goals
      first
        | exact ih _ _ _ _ h
        | (simp only [Except.ok.injEq, Prod.mk.injEq] at h
           exact ⟨_, h.1.symm⟩)
        | simp at h

theorem fromByte_ge13 (b : Nat) (h : 13 ≤ b) : fromByte b = .error .unknownTag := by
  rcases b with _|_|_|_|_|_|_|_|_|_|_|_|_|b
  all_goals first | omega | rfl

/-! ## Claims -/

/-- C1: every value decoded from the wire is built with the variant that
exactly matches the wire tag that introduced it — whenever the payload
decoder succeeds under tag `t`, the resulting value's variant is `t`, so
decoding an encoding of `Byte(5)` can never yield `Short(5)` or `Int(5)`
and no integer payload is accepted at a width other than the one its tag
declares. -/
theorem spec_C1 :
    ∀ (fuel : Nat) (t : Tag) (input : List Nat) (v : Value) (rest : List Nat),
      decodePayload fuel t input = .ok (v, rest) → tagOf v = t := by
  intro fuel t input v rest h
  cases fuel with
  | zero => simp [decodePayload] at h
  | succ fuel =>
    rw [decodePayload] at h
    cases t
    case end_ => simp [decodePayloadF] at h
    case compound =>
      simp only [decodePayloadF] at h
      obtain ⟨es, rfl⟩ := decodeEntries_shape _ _ _ _ _ _ h
      rfl
    all_goals
      simp only [decodePayloadF] at h
    all_goals
      repeat' split at h
    all_goals
      first
        | (simp only [Except.ok.injEq, Prod.mk.injEq] at h
           obtain ⟨h1, h2⟩ := h
           subst h1
           rfl)
        | simp at h

/-- Witness for C1: a byte payload decoded under the `Byte` tag comes back
as the `Byte` variant. -/
theorem spec_C1_witness : tagOf (Value.byte 5) = Tag.byte :=
  spec_C1 2 Tag.byte [5] (Value.byte 5) [] (by rfl)

/-- C2: `from_byte` is a left inverse of `to_byte` on all 13 tags, and is
injective on the bytes 0–12, so it is the unique left inverse. -/
theorem spec_C2 :
    (∀ t : Tag, fromByte (toByte t) = .ok t) ∧
    (∀ b1 : Nat, b1 < 13 → ∀ b2 : Nat, b2 < 13 → fromByte b1 = fromByte b2 → b1 = b2) := by
  constructor
  · exact fromByte_toByte
  · decide

/-- Witness for C2 at the `Short` tag and byte 2. -/
theorem spec_C2_witness :
    fromByte (toByte Tag.short) = .ok Tag.short ∧ (2 : Nat) = 2 :=
  ⟨spec_C2.1 Tag.short, spec_C2.2 2 (by norm_num) 2 (by norm_num) rfl⟩

/-- C3: `from_byte` returns a tag for every byte 0–12 and fails with
`UnknownTag` for every byte 13–255 (being a pure function, it has no side
effects). -/
theorem spec_C3 :
    (∀ b : Nat, b ≤ 12 → ∃ t, fromByte b = .ok t) ∧
    (∀ b : Nat, 13 ≤ b → b ≤ 255 → fromByte b = .error .unknownTag) := by
  constructor
  · intro b hb
    interval_cases b <;> exact ⟨_, rfl⟩
  · intro b h13 _
    exact fromByte_ge13 b h13

/-- Witness for C3 at bytes 7 and 200. -/
theorem spec_C3_witness :
    (∃ t, fromByte 7 = .ok t) ∧ fromByte 200 = .error .unknownTag :=
  ⟨spec_C3.1 7 (by norm_num), spec_C3.2 200 (by norm_num) (by norm_num)⟩

/-- C4: each strict scalar discriminator accepts a primitive only when
the underlying reader reports it at exactly its width, and fails with
`TypeMismatch` reporting the expected width at every other reported
width, even when the number would fit losslessly. -/
theorem spec_C4 :
    ∀ p : ReportedInt,
      strict_i8 p = (if p.width = 8 then .ok p.value else .error (.typeMismatch 8)) ∧
      strict_i16 p = (if p.width = 16 then .ok p.value else .error (.typeMismatch 16)) ∧
      strict_i32 p = (if p.width = 32 then .ok p.value else .error (.typeMismatch 32)) := by
  intro p
  cases p <;>
    simp [strict_i8, strict_i16, strict_i32, ReportedInt.width, ReportedInt.value]

/-- C5: on acceptance (reported width equal to its own), each strict
discriminator returns the reported value unchanged (and, being pure, has
no side effects). -/
theorem spec_C5 :
    ∀ v : Int,
      strict_i8 (.i8 v) = .ok v ∧ strict_i16 (.i16 v) = .ok v ∧
      strict_i32 (.i32 v) = .ok v := by
  intro v
  exact ⟨rfl, rfl, rfl⟩

/-- C6: `CompTag<N>` fails with `ArrayTypeMismatch` exactly when the tag
byte read from the wire differs from `N`, and on success yields only the
stateless zero-size marker and the untouched remaining input. -/
theorem spec_C6 :
    ∀ (n tag : Nat) (rest : List Nat),
      (compTagDeserialize n (tag :: rest) = .error .arrayTypeMismatch ↔ tag ≠ n) ∧
      (tag = n → compTagDeserialize n (tag :: rest) = .ok ((), rest)) := by
  intro n tag rest
  by_cases h : tag = n <;> simp [compTagDeserialize, readByte, h]

/-- Witness for C6: `N = 11` accepts tag byte 11 and rejects tag byte 12
with `ArrayTypeMismatch`. -/
theorem spec_C6_witness :
    compTagDeserialize 11 (11 :: [2, 3]) = .ok ((), [2, 3]) ∧
    compTagDeserialize 11 (12 :: []) = .error .arrayTypeMismatch :=
  ⟨(spec_C6 11 11 [2, 3]).2 rfl, ((spec_C6 11 12 []).1).2 (by norm_num)⟩

/-- C7: a list or array header whose signed 32-bit count field is
negative fails with `NegativeLength` — the count is neither treated as
zero nor wrapped to a large unsigned count. -/
theorem spec_C7 :
    ∀ (fuel : Nat) (c : Int) (rest : List Nat) (etb : Nat) (et : Tag),
      1 ≤ fuel → -((2 : Int) ^ 31) ≤ c → c < 0 →
      fromByte etb = .ok et →
      decodePayload fuel .list (etb :: (writeIntBE 4 c ++ rest)) = .error .negativeLength ∧
      decodePayload fuel .byteArray (BYTE_ARRAY_TAG :: (writeIntBE 4 c ++ rest)) =
        .error .negativeLength ∧
      decodePayload fuel .intArray (INT_ARRAY_TAG :: (writeIntBE 4 c ++ rest)) =
        .error .negativeLength ∧
      decodePayload fuel .longArray (LONG_ARRAY_TAG :: (writeIntBE 4 c ++ rest)) =
        .error .negativeLength := by
  intro fuel c rest etb et hf h1 h2 het
  obtain ⟨fuel, rfl⟩ : ∃ g, fuel = g + 1 := ⟨fuel - 1, by omega⟩
  have hcnt := readIntBE_writeIntBE 4 (by norm_num) c h1 (by norm_num; omega) rest
  refine ⟨?_, ?_, ?_, ?_⟩ <;>
    simp [decodePayload, decodePayloadF, readByte, compTagDeserialize,
      BYTE_ARRAY_TAG, INT_ARRAY_TAG, LONG_ARRAY_TAG, het, hcnt, h2]

/-- Witness for C7 at count `-1` with element tag byte 3 (`Int`). -/
theorem spec_C7_witness :
    decodePayload 1 Tag.list (3 :: (writeIntBE 4 (-1) ++ [])) = .error .negativeLength ∧
    decodePayload 1 Tag.byteArray (BYTE_ARRAY_TAG :: (writeIntBE 4 (-1) ++ [])) =
      .error .negativeLength ∧
    decodePayload 1 Tag.intArray (INT_ARRAY_TAG :: (writeIntBE 4 (-1) ++ [])) =
      .error .negativeLength ∧
    decodePayload 1 Tag.longArray (LONG_ARRAY_TAG :: (writeIntBE 4 (-1) ++ [])) =
      .error .negativeLength :=
  spec_C7 1 (-1) [] 3 Tag.int (by norm_num) (by norm_num) (by norm_num) rfl

/-- C8: an empty compound encodes as the single `End` byte and that byte
decodes back to the empty mapping; a compound whose input is exhausted
after its (well-formed) entries without an `End` byte fails with
`Truncated`. -/
theorem spec_C8 :
    encodePayload (Value.compound []) = [0] ∧
    (∀ fuel : Nat, 1 ≤ fuel → decodePayload fuel .compound [0] = .ok (.compound [], [])) ∧
    (∀ (es : List (List Nat × Value)) (fuel : Nat),
      wfEntries es = true → vsizeEntries es < fuel →
      decodePayload fuel .compound (encodeEntries es) = .error .truncated) := by
  refine ⟨by simp [encodePayload, encodeEntries], ?_, ?_⟩
  · intro fuel hf
    obtain ⟨fuel, rfl⟩ : ∃ g, fuel = g + 1 := ⟨fuel - 1, by omega⟩
    simp [decodePayload, decodePayloadF, decodeEntries, readByte, fromByte]
  · intro es fuel hwf hsz
    obtain ⟨fuel, rfl⟩ : ∃ g, fuel = g + 1 := ⟨fuel - 1, by omega⟩
    have hdecall : ∀ e ∈ es, ∀ r,
        decodePayload fuel (tagOf e.2) (encodePayload e.2 ++ r) = .ok (e.2, r) := by
      intro e he r
      exact decodePayload_encodePayload fuel e.2 r (wfEntries_mem hwf e he)
        (by have := vsizeEntries_mem he; omega)
    have hfuel : es.length < (encodeEntries es).length + 1 := by
      have := length_le_length_encodeEntries es
      omega
    have := decodeEntries_truncated (decodePayload fuel) es
      ((encodeEntries es).length + 1) [] hfuel hwf (by simp) hdecall
    simp only [decodePayload, decodePayloadF]
    exact this

/-- Witness for C8: the empty-input loop after one encoded entry reports
`Truncated`, and one fuel unit decodes `[0]` to the empty compound. -/
theorem spec_C8_witness :
    decodePayload 1 Tag.compound [0] = .ok (.compound [], []) ∧
    decodePayload 2 Tag.compound (encodeEntries [([65], Value.byte 5)]) =
      .error .truncated :=
  ⟨spec_C8.2.1 1 (by norm_num),
   spec_C8.2.2 [([65], Value.byte 5)] 2
     (by simp [wfEntries, wfV])
     (by simp [vsizeEntries, vsize])⟩

/-- C9: decoding the encoding of any well-formed value reproduces it
exactly — array element order preserved and the compound entry set
preserved (the model keeps entries in their canonical encounter order, so
plain structural equality holds). -/
theorem spec_C9 :
    ∀ v : Value, wfV v = true → decodeValue (encodeValue v) = .ok (v, []) := by
  intro v hwf
  have hfuel : vsize v ≤ (encodeValue v).length := by
    have h1 := vsize_le_length_encodePayload v
    simp only [encodeValue, List.length_cons]
    omega
  have hmain := decodePayload_encodePayload ((encodeValue v).length) v [] hwf hfuel
  simp only [encodeValue, List.length_cons, List.append_nil] at hmain
  simp only [decodeValue, encodeValue, readByte, fromByte_toByte, List.length_cons]
  exact hmain

/-- Witness for C9: the specification's scenario compound
`{"A": Byte(5)}` (name bytes `[65]`) round-trips. -/
theorem spec_C9_witness :
    decodeValue (encodeValue (Value.compound [([65], Value.byte 5)])) =
      .ok (Value.compound [([65], Value.byte 5)], []) :=
  spec_C9 (Value.compound [([65], Value.byte 5)])
    (by simp [wfV, wfEntries])

/-- C10: the byte-to-tag conversion is total over the whole `u8` domain:
every byte 0–255 is explicitly classified, yielding a tag for 0–12 and
the `UnknownTag` error for 13–255 — no input can fall through
unclassified. -/
theorem spec_C10 :
    ∀ b : Nat, b < 256 →
      (b ≤ 12 ∧ ∃ t, fromByte b = .ok t) ∨
      (13 ≤ b ∧ fromByte b = .error .unknownTag) := by
  intro b hb
  rcases Nat.lt_or_ge b 13 with h | h
  · left
    refine ⟨by omega, ?_⟩
    interval_cases b <;> exact ⟨_, rfl⟩
  · right
    exact ⟨h, fromByte_ge13 b h⟩

/-- Witness for C10 at byte 255. -/
theorem spec_C10_witness :
    (255 ≤ 12 ∧ ∃ t, fromByte 255 = .ok t) ∨
    (13 ≤ 255 ∧ fromByte 255 = .error .unknownTag) :=
  spec_C10 255 (by norm_num)

end Fastnbt
